import Mathlib

/-!
Verification of the scheduling core of `functions.py`: the time normalizer
(`time_to_minutes`), the greedy per-track interval packer (`optimum_timetable`),
the weighted interval scheduler (`weighted_scheduling`) and its binary-search
predecessor function (`prev`).

Times, values and ids are modelled as `Int`; Python lists become `List`,
the `defaultdict(IntervalTree)` becomes an association list in first-insertion
order, and the `ValueError` that `intervaltree` raises on a null interval is
modelled by `Option` (`none` = the call raises).
-/

namespace Sonar

/-- An interval stored in a track's interval tree, mirroring
`intervaltree.Interval(begin, end, data)`: `lo` is `begin`, `hi` is `end`,
`data` holds the activity id (`tree[start:end] = act["id"]`). -/
structure Iv where
  lo : Int
  hi : Int
  data : Int
deriving DecidableEq

/-- An activity record consumed by `optimum_timetable`, with `start_time` and
`end_time` already normalized to integer minutes.  The source converts the raw
`"HH:MM:SS"` strings with `time_to_minutes` before any interval logic runs;
that conversion is modelled separately (see `time_to_minutes`). -/
structure PAct where
  id : Int
  schedule_id : Int
  start_time : Int
  end_time : Int
deriving DecidableEq

/-- The per-schedule interval trees, `trees = defaultdict(IntervalTree)`,
as an association list keyed by `schedule_id` in first-insertion order
(Python dicts preserve insertion order); each tree is the list of its
intervals in insertion order. -/
abbrev Trees := List (Int × List Iv)

/-- `trees[k]` viewed read-only: the tree stored for key `k`, or the empty
tree when the key is absent (a `defaultdict` returns a fresh empty tree). -/
def getTree (ts : Trees) (k : Int) : List Iv :=
  match ts.find? (fun p => p.1 == k) with
  | some p => p.2
  | none => []

/-- Adding interval `iv` to the tree stored at key `k` (`tree[start:end] = id`),
creating the entry at the end when the key is absent, exactly as a
`defaultdict` creates it on first access. -/
def putTree (ts : Trees) (k : Int) (iv : Iv) : Trees :=
  match ts with
  | [] => [(k, [iv])]
  | p :: rest => if p.1 = k then (p.1, p.2 ++ [iv]) :: rest else p :: putTree rest k iv

/-- `tree.overlaps(start, end)` from `intervaltree`: a null query range
(`start >= end`) overlaps nothing; otherwise some stored interval
`[lo, hi)` must strictly intersect the half-open query range. -/
def overlapsRange (tree : List Iv) (s e : Int) : Bool :=
  decide (s < e) && tree.any (fun iv => decide (iv.lo < e) && decide (s < iv.hi))

/-- One iteration of the admission loop of `optimum_timetable`: look up the
activity's tree, reject when `tree.overlaps(start, end)`, otherwise insert
`tree[start:end] = act["id"]`.  Inserting a null interval (`start >= end`)
raises `ValueError` in `intervaltree`, modelled as `none`. -/
def stepTT (st : Option Trees) (act : PAct) : Option Trees :=
  match st with
  | none => none
  | some ts =>
    let s := act.start_time
    let e := act.end_time
    let tree := getTree ts act.schedule_id
    if overlapsRange tree s e then some ts
    else if s < e then some (putTree ts act.schedule_id ⟨s, e, act.id⟩)
    else none

/-- The admission loop of `optimum_timetable` run from state `ts`. -/
def runTT (ts : Trees) (acts : List PAct) : Option Trees :=
  acts.foldl stepTT (some ts)

/-- Ordering of intervals by `begin`, used by
`sorted(tree, key=lambda i: i.begin)`. -/
def loLE (a b : Iv) : Prop := a.lo ≤ b.lo

instance : DecidableRel loLE := fun a b => inferInstanceAs (Decidable (a.lo ≤ b.lo))

/-- The output extraction of `optimum_timetable`: for each tree in insertion
order, the ids of its intervals sorted ascending by `begin`
(`ordered_ids += [i.data for i in sorted(tree, key=lambda i: i.begin)]`);
Python's stable `sorted` is modelled by a stable insertion sort. -/
def outputIds (ts : Trees) : List Int :=
  ts.foldl (fun acc p => acc ++ (List.insertionSort loLE p.2).map Iv.data) []

/-- `optimum_timetable` (the spec's `pack_tracks`): greedy first-fit packing of
the priority-ordered activities into one interval tree per `schedule_id`,
then per-tree extraction of the admitted ids sorted by start time.
`none` models the `ValueError` raised on inserting a null interval. -/
def optimum_timetable (input : List PAct) : Option (List Int) :=
  (runTT [] input).map outputIds

/-- Two stored intervals are compatible when their half-open ranges do not
strictly intersect. -/
def compat (a b : Iv) : Prop := ¬(a.lo < b.hi ∧ b.lo < a.hi)

/-- Invariant of the admission loop: every stored interval is proper and the
intervals within one tree are pairwise compatible. -/
def goodTrees (ts : Trees) : Prop :=
  ∀ k : Int, (∀ iv ∈ getTree ts k, iv.lo < iv.hi) ∧ (getTree ts k).Pairwise compat

/-- `time_to_minutes` applied to a parsed wall-clock time with components
`hour` (0..23) and `minute` (0..59); `datetime.strptime(t, "%H:%M:%S").time()`
is modelled as this (hour, minute) pair, seconds being ignored by the source.
The body mirrors the source exactly: `t.hour + 24 + t.minute + 24 * 60` when
`t.hour < 8`, else `t.hour * 60 + t.minute`. -/
def time_to_minutes (hour minute : Int) : Int :=
  if hour < 8 then hour + 24 + minute + 24 * 60
  else hour * 60 + minute

/-- An activity record consumed by `weighted_scheduling`: integer times and an
integer value (the source allows `int` or `float`; the claims use integers). -/
structure WAct where
  id : Int
  start_time : Int
  end_time : Int
  value : Int
deriving DecidableEq

/-- `activities[j]["start_time"]` with Python's in-range index `j >= 0`;
out-of-range reads (never performed by the source) default to a zero record. -/
def wstart (acts : List WAct) (j : Int) : Int :=
  (acts.getD j.toNat ⟨0, 0, 0, 0⟩).start_time

/-- `activities[j]["end_time"]`, as in `wstart`. -/
def wend (acts : List WAct) (j : Int) : Int :=
  (acts.getD j.toNat ⟨0, 0, 0, 0⟩).end_time

/-- `activities[j]["value"]`, as in `wstart`. -/
def wvalue (acts : List WAct) (j : Int) : Int :=
  (acts.getD j.toNat ⟨0, 0, 0, 0⟩).value

/-- `activities[j]["id"]`, as in `wstart`. -/
def wid (acts : List WAct) (j : Int) : Int :=
  (acts.getD j.toNat ⟨0, 0, 0, 0⟩).id

/-- The binary-search loop of `prev`: `while l <= r: mid = (l + r) // 2; ...`.
Lean's `Int` division floors for a positive divisor, exactly like Python's
`//`.  The loop is driven by a fuel argument so that it is structurally
recursive; each iteration shrinks `r + 1 - l` by at least one, so the fuel
`(r + 1 - l).toNat + 1` used by `prevAux` makes the fuel-exhausted branch
unreachable (it returns `best_idx`, the value the loop exit returns anyway). -/
def prevAuxF (acts : List WAct) (s : Int) : Nat → Int → Int → Int → Int
  | 0, _, _, best => best
  | fuel + 1, l, r, best =>
    if l ≤ r then
      if wend acts ((l + r) / 2) ≤ s then prevAuxF acts s fuel ((l + r) / 2 + 1) r ((l + r) / 2)
      else prevAuxF acts s fuel l ((l + r) / 2 - 1) best
    else best

/-- The binary-search loop of `prev` from state `l, r, best_idx`, with enough
fuel to run to its natural exit. -/
def prevAux (acts : List WAct) (s l r best : Int) : Int :=
  prevAuxF acts s ((r + 1 - l).toNat + 1) l r best

/-- `prev(activities, i)`: index of the rightmost activity before `i` whose
end time is at most `activities[i]["start_time"]`, or `-1`;
`l, r = 0, i - 1`, `best_idx = -1`. -/
def prev (acts : List WAct) (i : Int) : Int :=
  prevAux acts (wstart acts i) 0 (i - 1) (-1)

/-- The DP fill loop of `weighted_scheduling` after `k` iterations: the first
`k` entries of `dp_table`.  `dp_table` is initialised to `-1` everywhere, so at
`i = 0` Python's `dp_table[i - 1]` reads `dp_table[-1]`, the still-initial last
slot, i.e. `-1`; for `i >= 1` it reads the entry written in the previous
iteration.  `dp_table[p]` for `p >= 0` is the entry written at iteration `p`
(`prev` always returns a value below `i`), and `p < 0` contributes `0`. -/
def dpList (acts : List WAct) : Nat → List Int
  | 0 => []
  | k + 1 =>
    let dp := dpList acts k
    let p := prev acts (k : Int)
    let above : Int := if k = 0 then -1 else dp.getD (k - 1) (-1)
    let pv : Int := if 0 ≤ p then dp.getD p.toNat (-1) else 0
    dp ++ [max above (wvalue acts (k : Int) + pv)]

/-- The backtracking loop of `weighted_scheduling`
(`while i >= 0: if i == 0 or dp_table[i] != dp_table[i-1]: append id; i = prev(...)
else: i -= 1`), with an explicit fuel bound; the loop index drops by at least
one per iteration (`prev` returns a value below `i`), so any fuel above the
starting index completes the loop (proved in the termination theorem below). -/
def backtrackAux (acts : List WAct) (dp : List Int) : Nat → Int → Option (List Int)
  | 0, i => if i < 0 then some [] else none
  | fuel + 1, i =>
    if i < 0 then some []
    else if i = 0 ∨ dp.getD i.toNat (-1) ≠ dp.getD (i - 1).toNat (-1) then
      (backtrackAux acts dp fuel (prev acts i)).map fun ids => wid acts i :: ids
    else backtrackAux acts dp fuel (i - 1)

/-- Ordering of activities by end time, used by
`activities.sort(key=lambda x: x["end_time"])`. -/
def endLE (a b : WAct) : Prop := a.end_time ≤ b.end_time

instance : DecidableRel endLE := fun a b => inferInstanceAs (Decidable (a.end_time ≤ b.end_time))

instance : IsTotal WAct endLE := ⟨fun a b => Int.le_total a.end_time b.end_time⟩

instance : IsTrans WAct endLE := ⟨fun _ _ _ => Int.le_trans⟩

instance : IsRefl WAct endLE := ⟨fun a => Int.le_refl a.end_time⟩

/-- `activities.sort(key=lambda x: x["end_time"])`: Python's stable in-place
sort, modelled by a stable insertion sort. -/
def sortByEnd (acts : List WAct) : List WAct :=
  List.insertionSort endLE acts

/-- `weighted_scheduling` (the spec's `max_weight_schedule`).  The first
component is the returned id list; the second is the argument list as the
caller sees it after the call (the source sorts it in place).  The fuel
`acts.length` strictly exceeds the starting index `n - 1`, so the fuel guard
is never hit (see the termination theorem below). -/
def weighted_scheduling (activities : List WAct) : List Int × List WAct :=
  let acts := sortByEnd activities
  let n := acts.length
  let dp := dpList acts n
  ((backtrackAux acts dp n ((n : Int) - 1)).getD [], acts)

/-- Total value of a list of activities (the objective of the claims). -/
def sumValues (l : List WAct) : Int :=
  l.foldl (fun s a => s + a.value) 0

/-! Helper lemmas about the admission loop of `optimum_timetable`. -/

theorem foldl_stepTT_none (acts : List PAct) : acts.foldl stepTT none = none := by
  induction acts with
  | nil => rfl
  | cons a l ih => exact ih

theorem runTT_append_some {ts ts' : Trees} {l₁ : List PAct} (h : runTT ts l₁ = some ts')
    (l₂ : List PAct) : runTT ts (l₁ ++ l₂) = runTT ts' l₂ := by
  unfold runTT at *
  rw [List.foldl_append, h]

theorem runTT_some_of_append {ts tsF : Trees} {l₁ l₂ : List PAct}
    (h : runTT ts (l₁ ++ l₂) = some tsF) :
    ∃ ts', runTT ts l₁ = some ts' ∧ runTT ts' l₂ = some tsF := by
  unfold runTT at *
  rw [List.foldl_append] at h
  cases hh : List.foldl stepTT (some ts) l₁ with
  | none => rw [hh, foldl_stepTT_none] at h; cases h
  | some ts' => exact ⟨ts', rfl, by rwa [hh] at h⟩

theorem stepTT_some {ts ts' : Trees} {a : PAct} (h : stepTT (some ts) a = some ts') :
    (ts' = ts ∧ overlapsRange (getTree ts a.schedule_id) a.start_time a.end_time = true) ∨
    (ts' = putTree ts a.schedule_id ⟨a.start_time, a.end_time, a.id⟩ ∧
      a.start_time < a.end_time ∧
      overlapsRange (getTree ts a.schedule_id) a.start_time a.end_time = false) := by
  have h' : (if overlapsRange (getTree ts a.schedule_id) a.start_time a.end_time then some ts
      else if a.start_time < a.end_time then
        some (putTree ts a.schedule_id ⟨a.start_time, a.end_time, a.id⟩)
      else none) = some ts' := h
  by_cases h1 : overlapsRange (getTree ts a.schedule_id) a.start_time a.end_time = true
  · rw [if_pos h1, Option.some.injEq] at h'
    exact Or.inl ⟨h'.symm, h1⟩
  · rw [if_neg h1] at h'
    by_cases h2 : a.start_time < a.end_time
    · rw [if_pos h2, Option.some.injEq] at h'
      exact Or.inr ⟨h'.symm, h2, by simpa using h1⟩
    · rw [if_neg h2] at h'
      cases h'

theorem getTree_nil (k : Int) : getTree [] k = [] := rfl

theorem getTree_cons_of_eq (p : Int × List Iv) (rest : Trees) (k : Int) (h : p.1 = k) :
    getTree (p :: rest) k = p.2 := by
  unfold getTree
  rw [List.find?_cons_of_pos _ (by simp [h])]

theorem getTree_cons_of_ne (p : Int × List Iv) (rest : Trees) (k : Int) (h : ¬p.1 = k) :
    getTree (p :: rest) k = getTree rest k := by
  unfold getTree
  rw [List.find?_cons_of_neg _ (by simp [h])]

theorem getTree_putTree_self (ts : Trees) (k : Int) (iv : Iv) :
    getTree (putTree ts k iv) k = getTree ts k ++ [iv] := by
  induction ts with
  | nil => rw [putTree, getTree_cons_of_eq (k, [iv]) [] k rfl, getTree_nil]; rfl
  | cons p rest ih =>
    by_cases h : p.1 = k
    · rw [putTree, if_pos h, getTree_cons_of_eq (p.1, p.2 ++ [iv]) rest k h,
        getTree_cons_of_eq p rest k h]
    · rw [putTree, if_neg h, getTree_cons_of_ne p (putTree rest k iv) k h,
        getTree_cons_of_ne p rest k h, ih]

theorem getTree_putTree_ne {k k' : Int} (h : k' ≠ k) (ts : Trees) (iv : Iv) :
    getTree (putTree ts k iv) k' = getTree ts k' := by
  induction ts with
  | nil =>
    rw [putTree, getTree_cons_of_ne (k, [iv]) [] k' (fun hc : k = k' => h hc.symm)]
  | cons p rest ih =>
    by_cases hp : p.1 = k
    · have hp' : ¬p.1 = k' := fun hc => h (hc ▸ hp ▸ rfl)
      rw [putTree, if_pos hp, getTree_cons_of_ne (p.1, p.2 ++ [iv]) rest k' hp',
        getTree_cons_of_ne p rest k' hp']
    · by_cases hp' : p.1 = k'
      · rw [putTree, if_neg hp, getTree_cons_of_eq p (putTree rest k iv) k' hp',
        getTree_cons_of_eq p rest k' hp']
      · rw [putTree, if_neg hp, getTree_cons_of_ne p (putTree rest k iv) k' hp',
        getTree_cons_of_ne p rest k' hp', ih]

theorem keys_putTree (ts : Trees) (k : Int) (iv : Iv) :
    (putTree ts k iv).map Prod.fst =
      if k ∈ ts.map Prod.fst then ts.map Prod.fst else ts.map Prod.fst ++ [k] := by
  induction ts with
  | nil => simp [putTree]
  | cons p rest ih =>
    by_cases h : p.1 = k
    · simp [putTree, h]
    · have h' : ¬(k = p.1) := fun hc => h hc.symm
      simp only [putTree, h, if_false, List.map_cons, ih, List.mem_cons, h', false_or]
      by_cases hc : k ∈ rest.map Prod.fst <;> simp [hc]

theorem nodupKeys_putTree {ts : Trees} (h : (ts.map Prod.fst).Nodup) (k : Int) (iv : Iv) :
    ((putTree ts k iv).map Prod.fst).Nodup := by
  rw [keys_putTree]
  split
  · exact h
  · next hk => simp [List.nodup_append, h, hk]

theorem getTree_of_mem {ts : Trees} (hnd : (ts.map Prod.fst).Nodup) {p : Int × List Iv}
    (hp : p ∈ ts) : getTree ts p.1 = p.2 := by
  induction ts with
  | nil => cases hp
  | cons q rest ih =>
    rcases List.mem_cons.mp hp with rfl | hp'
    · exact getTree_cons_of_eq p rest p.1 rfl
    · have hq : ¬(q.1 = p.1) := by
        intro hc
        have : q.1 ∈ rest.map Prod.fst := hc ▸ List.mem_map_of_mem Prod.fst hp'
        exact (List.nodup_cons.mp hnd).1 this
      rw [getTree_cons_of_ne q rest p.1 hq]
      exact ih (List.nodup_cons.mp hnd).2 hp'

theorem mem_of_getTree_ne_nil {ts : Trees} {k : Int} (h : getTree ts k ≠ []) :
    (k, getTree ts k) ∈ ts := by
  induction ts with
  | nil => exact absurd rfl h
  | cons q rest ih =>
    by_cases hq : q.1 = k
    · rw [getTree_cons_of_eq q rest k hq] at h ⊢
      rw [← hq]
      exact List.mem_cons_self _ _
    · rw [getTree_cons_of_ne q rest k hq] at h ⊢
      exact List.mem_cons_of_mem q (ih h)

theorem mem_foldl_append (f : (Int × List Iv) → List Int) (l : List (Int × List Iv))
    (acc : List Int) (x : Int) :
    x ∈ l.foldl (fun acc p => acc ++ f p) acc ↔ x ∈ acc ∨ ∃ p ∈ l, x ∈ f p := by
  induction l generalizing acc with
  | nil => simp
  | cons p rest ih =>
    rw [List.foldl_cons, ih]
    simp only [List.mem_append, List.mem_cons]
    constructor
    · rintro ((hx | hx) | ⟨q, hq, hxq⟩)
      · exact Or.inl hx
      · exact Or.inr ⟨p, Or.inl rfl, hx⟩
      · exact Or.inr ⟨q, Or.inr hq, hxq⟩
    · rintro (hx | ⟨q, (rfl | hq), hxq⟩)
      · exact Or.inl (Or.inl hx)
      · exact Or.inl (Or.inr hxq)
      · exact Or.inr ⟨q, hq, hxq⟩

theorem mem_outputIds {ts : Trees} {d : Int} :
    d ∈ outputIds ts ↔ ∃ p ∈ ts, ∃ iv ∈ p.2, iv.data = d := by
  unfold outputIds
  rw [mem_foldl_append]
  constructor
  · rintro (hx | ⟨p, hp, hd⟩)
    · cases hx
    · rcases List.mem_map.mp hd with ⟨iv, hiv, rfl⟩
      exact ⟨p, hp, iv, (List.perm_insertionSort loLE p.2).mem_iff.mp hiv, rfl⟩
  · rintro ⟨p, hp, iv, hiv, rfl⟩
    exact Or.inr ⟨p, hp, List.mem_map_of_mem Iv.data
      ((List.perm_insertionSort loLE p.2).mem_iff.mpr hiv)⟩

theorem runTT_getTree_prefix {ts' : Trees} {acts : List PAct} :
    ∀ {ts : Trees}, runTT ts acts = some ts' → ∀ k : Int,
      ∃ suf, getTree ts' k = getTree ts k ++ suf := by
  induction acts with
  | nil =>
    intro ts h k
    have : ts = ts' := by simpa [runTT] using h
    exact ⟨[], by simp [this]⟩
  | cons a l ih =>
    intro ts h k
    cases hs : stepTT (some ts) a with
    | none => rw [runTT, List.foldl_cons, hs, foldl_stepTT_none] at h; cases h
    | some ts₁ =>
      have h' : runTT ts₁ l = some ts' := by rw [runTT, List.foldl_cons, hs] at h; exact h
      obtain ⟨suf, hsuf⟩ := ih h' k
      rcases stepTT_some hs with ⟨rfl, -⟩ | ⟨rfl, -, -⟩
      · exact ⟨suf, hsuf⟩
      · by_cases hk : k = a.schedule_id
        · subst hk
          rw [getTree_putTree_self] at hsuf
          exact ⟨⟨a.start_time, a.end_time, a.id⟩ :: suf, by rw [hsuf, List.append_assoc]; rfl⟩
        · rw [getTree_putTree_ne hk] at hsuf
          exact ⟨suf, hsuf⟩

theorem runTT_provenance {ts' : Trees} {acts : List PAct} :
    ∀ {ts : Trees}, runTT ts acts = some ts' → ∀ k : Int, ∀ iv : Iv,
      iv ∈ getTree ts' k →
      iv ∈ getTree ts k ∨
        ∃ a ∈ acts, a.schedule_id = k ∧ iv = ⟨a.start_time, a.end_time, a.id⟩ := by
  induction acts with
  | nil =>
    intro ts h k iv hiv
    have : ts = ts' := by simpa [runTT] using h
    exact Or.inl (this ▸ hiv)
  | cons a l ih =>
    intro ts h k iv hiv
    cases hs : stepTT (some ts) a with
    | none => rw [runTT, List.foldl_cons, hs, foldl_stepTT_none] at h; cases h
    | some ts₁ =>
      have h' : runTT ts₁ l = some ts' := by rw [runTT, List.foldl_cons, hs] at h; exact h
      rcases ih h' k iv hiv with hin | ⟨b, hb, hbk, hbv⟩
      · rcases stepTT_some hs with ⟨rfl, -⟩ | ⟨rfl, -, -⟩
        · exact Or.inl hin
        · by_cases hk : k = a.schedule_id
          · subst hk
            rw [getTree_putTree_self, List.mem_append] at hin
            rcases hin with hin | hin
            · exact Or.inl hin
            · simp only [List.mem_singleton] at hin
              exact Or.inr ⟨a, List.mem_cons_self a l, rfl, hin⟩
          · rw [getTree_putTree_ne hk] at hin
            exact Or.inl hin
      · exact Or.inr ⟨b, List.mem_cons_of_mem a hb, hbk, hbv⟩

theorem runTT_nodupKeys {ts' : Trees} {acts : List PAct} :
    ∀ {ts : Trees}, (ts.map Prod.fst).Nodup → runTT ts acts = some ts' →
      (ts'.map Prod.fst).Nodup := by
  induction acts with
  | nil =>
    intro ts hnd h
    have : ts = ts' := by simpa [runTT] using h
    exact this ▸ hnd
  | cons a l ih =>
    intro ts hnd h
    cases hs : stepTT (some ts) a with
    | none => rw [runTT, List.foldl_cons, hs, foldl_stepTT_none] at h; cases h
    | some ts₁ =>
      have h' : runTT ts₁ l = some ts' := by rw [runTT, List.foldl_cons, hs] at h; exact h
      rcases stepTT_some hs with ⟨rfl, -⟩ | ⟨rfl, -, -⟩
      · exact ih hnd h'
      · exact ih (nodupKeys_putTree hnd _ _) h'

theorem runTT_good {ts' : Trees} {acts : List PAct} :
    ∀ {ts : Trees}, goodTrees ts → runTT ts acts = some ts' → goodTrees ts' := by
  induction acts with
  | nil =>
    intro ts hg h
    have : ts = ts' := by simpa [runTT] using h
    exact this ▸ hg
  | cons a l ih =>
    intro ts hg h
    cases hs : stepTT (some ts) a with
    | none => rw [runTT, List.foldl_cons, hs, foldl_stepTT_none] at h; cases h
    | some ts₁ =>
      have h' : runTT ts₁ l = some ts' := by rw [runTT, List.foldl_cons, hs] at h; exact h
      rcases stepTT_some hs with ⟨rfl, -⟩ | ⟨rfl, hpr, hov⟩
      · exact ih hg h'
      · refine ih (fun k => ?_) h'
        by_cases hk : k = a.schedule_id
        · subst hk
          rw [getTree_putTree_self]
          have hnov : ∀ x ∈ getTree ts a.schedule_id,
              ¬(x.lo < a.end_time ∧ a.start_time < x.hi) := by
            intro x hx hc
            have : overlapsRange (getTree ts a.schedule_id) a.start_time a.end_time = true := by
              unfold overlapsRange
              rw [Bool.and_eq_true, List.any_eq_true]
              exact ⟨by simpa using hpr, x, hx, by simp [hc.1, hc.2]⟩
            rw [hov] at this
            cases this
          constructor
          · intro iv hiv
            rcases List.mem_append.mp hiv with hiv | hiv
            · exact (hg a.schedule_id).1 iv hiv
            · simp only [List.mem_singleton] at hiv
              subst hiv
              exact hpr
          · rw [List.pairwise_append]
            refine ⟨(hg a.schedule_id).2, List.pairwise_singleton _ _, ?_⟩
            intro x hx y hy
            simp only [List.mem_singleton] at hy
            subst hy
            exact hnov x hx
        · rw [getTree_putTree_ne hk]
          exact hg k

theorem goodTrees_nil : goodTrees [] := by
  intro k
  rw [getTree_nil]
  exact ⟨fun iv hiv => absurd hiv (List.not_mem_nil iv), List.Pairwise.nil⟩

theorem compat_symm {a b : Iv} (h : compat a b) : compat b a := by
  unfold compat at *
  tauto

theorem eq_of_nodup_map_id {l : List PAct} (h : (l.map PAct.id).Nodup) {x y : PAct}
    (hx : x ∈ l) (hy : y ∈ l) (hid : x.id = y.id) : x = y :=
  List.inj_on_of_nodup_map h hx hy hid

theorem optimum_timetable_some {input : List PAct} {out : List Int}
    (h : optimum_timetable input = some out) :
    ∃ tsF, runTT [] input = some tsF ∧ out = outputIds tsF := by
  unfold optimum_timetable at h
  cases hrt : runTT [] input with
  | none => rw [hrt] at h; cases h
  | some tsF =>
    rw [hrt] at h
    simp only [Option.map_some', Option.some.injEq] at h
    exact ⟨tsF, rfl, h.symm⟩

theorem id_ne_facts {l₁ l₂ l₃ : List PAct} {a b : PAct}
    (h : ((l₁ ++ a :: l₂ ++ b :: l₃).map PAct.id).Nodup) :
    (∀ c ∈ l₁, c.id ≠ a.id) ∧ (∀ c ∈ l₂ ++ b :: l₃, c.id ≠ a.id) ∧
      (∀ c ∈ l₁ ++ a :: l₂, c.id ≠ b.id) ∧ (∀ c ∈ l₃, c.id ≠ b.id) := by
  rw [List.map_append, List.nodup_append] at h
  obtain ⟨ha1, h2, hdisj⟩ := h
  rw [List.map_cons, List.nodup_cons] at h2
  obtain ⟨hbnotin, -⟩ := h2
  rw [List.map_append, List.nodup_append] at ha1
  obtain ⟨-, ha2, hdisj1⟩ := ha1
  rw [List.map_cons, List.nodup_cons] at ha2
  obtain ⟨hanotin, -⟩ := ha2
  have hbr : (b.id : Int) ∈ List.map PAct.id (b :: l₃) := by
    rw [List.map_cons]; exact List.mem_cons_self _ _
  have hal : (a.id : Int) ∈ List.map PAct.id (l₁ ++ a :: l₂) :=
    List.mem_map_of_mem PAct.id (List.mem_append_right l₁ (List.mem_cons_self a l₂))
  refine ⟨?_, ?_, ?_, ?_⟩
  · intro c hc hcid
    refine hdisj1 (hcid ▸ List.mem_map_of_mem PAct.id hc) ?_
    rw [List.map_cons]
    exact List.mem_cons_self _ _
  · intro c hc hcid
    rcases List.mem_append.mp hc with hc1 | hc2
    · exact hanotin (hcid ▸ List.mem_map_of_mem PAct.id hc1)
    · exact hdisj hal (hcid ▸ List.mem_map_of_mem PAct.id hc2)
  · intro c hc hcid
    exact hdisj (hcid ▸ List.mem_map_of_mem PAct.id hc) hbr
  · intro c hc hcid
    exact hbnotin (hcid ▸ List.mem_map_of_mem PAct.id hc)

/-! Helper lemmas about the binary search and the backtracking loop of
`weighted_scheduling`. -/

theorem prevAuxF_le (acts : List WAct) (s B : Int) :
    ∀ (fuel : Nat) (l r best : Int), 0 ≤ l → -1 ≤ best → best ≤ B → r ≤ B →
      -1 ≤ prevAuxF acts s fuel l r best ∧ prevAuxF acts s fuel l r best ≤ B := by
  intro fuel
  induction fuel with
  | zero =>
    intro l r best hl hb1 hb2 hr
    exact ⟨hb1, hb2⟩
  | succ fuel ih =>
    intro l r best hl hb1 hb2 hr
    rw [prevAuxF]
    by_cases hlr : l ≤ r
    · rw [if_pos hlr]
      by_cases hw : wend acts ((l + r) / 2) ≤ s
      · rw [if_pos hw]
        exact ih ((l + r) / 2 + 1) r ((l + r) / 2) (by omega) (by omega) (by omega) hr
      · rw [if_neg hw]
        exact ih l ((l + r) / 2 - 1) best hl hb1 hb2 (by omega)
    · rw [if_neg hlr]
      exact ⟨hb1, hb2⟩

theorem prev_bounds (acts : List WAct) (i : Int) (hi : 0 ≤ i) :
    -1 ≤ prev acts i ∧ prev acts i < i := by
  unfold prev prevAux
  have h := prevAuxF_le acts (wstart acts i) (i - 1) ((i - 1 + 1 - 0).toNat + 1)
    0 (i - 1) (-1) le_rfl le_rfl (by omega) le_rfl
  exact ⟨h.1, by omega⟩

theorem backtrackAux_isSome (acts : List WAct) (dp : List Int) :
    ∀ (fuel : Nat) (i : Int), i < (fuel : Int) →
      (backtrackAux acts dp fuel i).isSome = true := by
  intro fuel
  induction fuel with
  | zero =>
    intro i hi
    rw [backtrackAux, if_pos (show i < 0 by exact_mod_cast hi)]
    rfl
  | succ fuel ih =>
    intro i hi
    rw [backtrackAux]
    by_cases h0 : i < 0
    · rw [if_pos h0]
      rfl
    · rw [if_neg h0]
      by_cases hcond : i = 0 ∨ dp.getD i.toNat (-1) ≠ dp.getD (i - 1).toNat (-1)
      · rw [if_pos hcond]
        have hp := prev_bounds acts i (by omega)
        have hrec := ih (prev acts i) (by push_cast at hi ⊢; omega)
        obtain ⟨v, hv⟩ := Option.isSome_iff_exists.mp hrec
        rw [hv]
        rfl
      · rw [if_neg hcond]
        exact ih (i - 1) (by push_cast at hi ⊢; omega)

theorem prevAuxF_spec (acts : List WAct) (s : Int) (i : Int)
    (hmono : ∀ j k : Int, 0 ≤ j → j ≤ k → k < i → wend acts j ≤ wend acts k) :
    ∀ (fuel : Nat) (l r best : Int),
      (r + 1 - l).toNat < fuel → 0 ≤ l → r < i →
      (∀ j : Int, r < j → j < i → ¬(wend acts j ≤ s)) →
      ((best = -1 ∧ ∀ j : Int, 0 ≤ j → j < l → ¬(wend acts j ≤ s)) ∨
        (0 ≤ best ∧ best < l ∧ best < i ∧ wend acts best ≤ s ∧
          ∀ j : Int, 0 ≤ j → j < l → wend acts j ≤ s → j ≤ best)) →
      ((prevAuxF acts s fuel l r best = -1 ∧
          ∀ j : Int, 0 ≤ j → j < i → ¬(wend acts j ≤ s)) ∨
        (0 ≤ prevAuxF acts s fuel l r best ∧ prevAuxF acts s fuel l r best < i ∧
          wend acts (prevAuxF acts s fuel l r best) ≤ s ∧
          ∀ j : Int, 0 ≤ j → j < i → wend acts j ≤ s →
            j ≤ prevAuxF acts s fuel l r best)) := by
  intro fuel
  induction fuel with
  | zero =>
    intro l r best hfuel
    exact absurd hfuel (by omega)
  | succ fuel ih =>
    intro l r best hfuel hl hri hup hbest
    rw [prevAuxF]
    by_cases hlr : l ≤ r
    · rw [if_pos hlr]
      by_cases hw : wend acts ((l + r) / 2) ≤ s
      · rw [if_pos hw]
        refine ih ((l + r) / 2 + 1) r ((l + r) / 2) (by omega) (by omega) hri hup ?_
        right
        refine ⟨by omega, by omega, by omega, hw, ?_⟩
        intro j hj0 hjl hPj
        omega
      · rw [if_neg hw]
        refine ih l ((l + r) / 2 - 1) best (by omega) hl (by omega) ?_ hbest
        intro j hj hji
        by_cases hjr : r < j
        · exact hup j hjr hji
        · intro hPj
          exact hw (le_trans (hmono ((l + r) / 2) j (by omega) (by omega) hji) hPj)
    · rw [if_neg hlr]
      rcases hbest with ⟨rfl, hlow⟩ | ⟨hb0, hbl, hbi, hPb, hmax⟩
      · left
        refine ⟨rfl, ?_⟩
        intro j hj0 hji hPj
        by_cases hjl : j < l
        · exact hlow j hj0 hjl hPj
        · exact hup j (by omega) hji hPj
      · right
        refine ⟨hb0, hbi, hPb, ?_⟩
        intro j hj0 hji hPj
        by_cases hjl : j < l
        · exact hmax j hj0 hjl hPj
        · exact absurd hPj (hup j (by omega) hji)

/-! The claim theorems. -/

/-- C1: the weighted scheduler is claimed optimal for all value signs, but on
the single activity `(id 1, [0, 10), value -5)` it returns `[1]`, selecting a
subset of total value `-5`, while the empty subset is non-overlapping with
total value `0 > -5`: `dp_table` is initialised to `-1` and the backtrack
always appends activity `0`, so a lone negative activity is selected, contrary
to the docstring "returns the subset ... with maximum summed value". -/
theorem claim1_weighted_optimality_bug :
    (weighted_scheduling [⟨1, 0, 10, -5⟩]).1 = [1] ∧
    sumValues [⟨1, 0, 10, -5⟩] = -5 ∧
    sumValues [] = 0 ∧ (-5 : Int) < 0 := by decide

/-- C2: the time normalizer is claimed to map hour `h < 8` to
`h*60 + minute + 24*60`, hence `"07:59:00"` to `1919`; the code computes
`t.hour + 24 + t.minute + 24*60 = 1530` instead (the hour is never scaled by
60 on the wraparound branch), while the `hour >= 8` branch matches the claim
(`"08:00:00" -> 480`, `"23:30:00" -> 1410`). -/
theorem claim2_time_normalizer_bug :
    time_to_minutes 7 59 = 1530 ∧ (1530 : Int) ≠ 24 * 60 + 7 * 60 + 59 ∧
    time_to_minutes 8 0 = 480 ∧ time_to_minutes 23 30 = 1410 := by decide

/-- C3: the DP table is claimed to satisfy `dp[0] = max(0, value[0])`, but the
code initialises `dp_table` to `-1` and at `i = 0` Python's `dp_table[i-1]`
reads the still-initial last slot, so `dp[0] = max(-1, value[0])`: on the
single activity of value `-2` the table is `[-1]`, not `[max(0, -2)] = [0]`. -/
theorem claim3_dp_recurrence_bug :
    dpList [⟨1, 0, 1, -2⟩] 1 = [-1] ∧ max (0 : Int) (-2) = 0 ∧
    ((-1 : Int) = 0 → False) := by decide

/-- C7: intervals are half-open, so a stored interval `[s, e)` never overlaps
a query range starting exactly at `e` (touching intervals are compatible);
in particular the single-track scenario `[(1,0,60), (2,30,90), (3,60,120)]`
selects exactly the ids `[1, 3]`. -/
theorem claim7_half_open_touching :
    (∀ s e d e' : Int, overlapsRange [⟨s, e, d⟩] e e' = false) ∧
    optimum_timetable [⟨1, 1, 0, 60⟩, ⟨2, 1, 30, 90⟩, ⟨3, 1, 60, 120⟩] = some [1, 3] := by
  refine ⟨fun s e d e' => ?_, by decide⟩
  simp [overlapsRange]

/-- C8 counterexample: the claim says the input list is unchanged after
`weighted_scheduling` returns, but the source sorts the caller's list in
place (`activities.sort(key=...)`): on `[(id 1, end 10), (id 2, end 5)]` the
list the caller holds after the call is reordered. -/
theorem claim8_input_mutated :
    (weighted_scheduling [⟨1, 0, 10, 1⟩, ⟨2, 0, 5, 1⟩]).2 ≠
      [⟨1, 0, 10, 1⟩, ⟨2, 0, 5, 1⟩] := by decide

/-- C8 amended: `optimum_timetable` only reads its input, but
`weighted_scheduling` re-sorts the caller's list in place: after the call the
input list holds exactly the same records (a permutation — no field of any
record is changed) arranged ascending by `end_time`. -/
theorem claim8_post_state_sorted_perm (input : List WAct) :
    ((weighted_scheduling input).2).Perm input ∧
    List.Sorted endLE (weighted_scheduling input).2 :=
  ⟨List.perm_insertionSort endLE input, List.sorted_insertionSort endLE input⟩

/-- C5: among the activities whose ids appear in the output of the greedy
track packer, any two distinct ones sharing a `schedule_id` occupy
non-overlapping half-open intervals (their strict range intersection is
empty); ids are unique identifiers per the data model, stated as `Nodup`. -/
theorem claim5_per_track_non_overlap (input : List PAct) (out : List Int)
    (hids : (input.map PAct.id).Nodup)
    (hrun : optimum_timetable input = some out)
    (a b : PAct) (ha : a ∈ input) (hb : b ∈ input)
    (hao : a.id ∈ out) (hbo : b.id ∈ out)
    (htrack : a.schedule_id = b.schedule_id)
    (hne : a.id ≠ b.id) :
    ¬(max a.start_time b.start_time < min a.end_time b.end_time) := by
  obtain ⟨tsF, hts, rfl⟩ := optimum_timetable_some hrun
  have hnd : (tsF.map Prod.fst).Nodup := runTT_nodupKeys (by simp) hts
  have hgood := runTT_good goodTrees_nil hts
  obtain ⟨p, hp, iva, hiva, hivad⟩ := mem_outputIds.mp hao
  obtain ⟨q, hq, ivb, hivb, hivbd⟩ := mem_outputIds.mp hbo
  have hgp : getTree tsF p.1 = p.2 := getTree_of_mem hnd hp
  have hgq : getTree tsF q.1 = q.2 := getTree_of_mem hnd hq
  have hprova := runTT_provenance hts p.1 iva (hgp ▸ hiva)
  have hprovb := runTT_provenance hts q.1 ivb (hgq ▸ hivb)
  rw [getTree_nil] at hprova hprovb
  rcases hprova with hfalse | ⟨c, hc, hck, hcv⟩
  · cases hfalse
  rcases hprovb with hfalse | ⟨d, hd, hdk, hdv⟩
  · cases hfalse
  have hca : c = a := eq_of_nodup_map_id hids hc ha (by rw [← hivad, hcv])
  have hdb : d = b := eq_of_nodup_map_id hids hd hb (by rw [← hivbd, hdv])
  subst hca hdb
  have hpq : p = q := List.inj_on_of_nodup_map hnd hp hq (by rw [← hck, ← hdk, htrack])
  subst hpq
  have hpw : p.2.Pairwise compat := hgp ▸ (hgood p.1).2
  have hivne : iva ≠ ivb := fun hcontra => hne (by rw [← hivad, ← hivbd, hcontra])
  have hcompat : compat iva ivb :=
    List.Pairwise.forall (fun x y hxy => compat_symm hxy) hpw hiva hivb hivne
  rw [hcv, hdv] at hcompat
  unfold compat at hcompat
  simp only [not_and, not_lt] at hcompat ⊢
  omega

/-- Concrete instantiation of C5: on a two-activity single-track input whose
output selects both ids, the theorem yields that the two admitted intervals
`[0, 60)` and `[60, 120)` do not strictly intersect. -/
theorem claim5_witness : ¬(max (0 : Int) 60 < min 60 120) :=
  claim5_per_track_non_overlap [⟨1, 1, 0, 60⟩, ⟨3, 1, 60, 120⟩] [1, 3]
    (by decide) (by decide) ⟨1, 1, 0, 60⟩ ⟨3, 1, 60, 120⟩
    (by decide) (by decide) (by decide) (by decide) rfl (by decide)

/-- C9: the first (highest-priority) activity of a non-empty input is always
admitted by the greedy packer — its track's tree is empty when it is tested
and nothing overlaps an empty tree — so its id appears in the output. -/
theorem claim9_first_activity_selected (a : PAct) (rest : List PAct) (out : List Int)
    (h : optimum_timetable (a :: rest) = some out) : a.id ∈ out := by
  obtain ⟨tsF, hts, rfl⟩ := optimum_timetable_some h
  cases hs : stepTT (some []) a with
  | none => rw [runTT, List.foldl_cons, hs, foldl_stepTT_none] at hts; cases hts
  | some ts₁ =>
    have h1 : runTT ts₁ rest = some tsF := by
      rw [runTT, List.foldl_cons, hs] at hts; exact hts
    rcases stepTT_some hs with ⟨rfl, hov⟩ | ⟨rfl, hpr, hov⟩
    · rw [getTree_nil] at hov
      simp [overlapsRange] at hov
    · have hmem : (⟨a.start_time, a.end_time, a.id⟩ : Iv) ∈
          getTree (putTree [] a.schedule_id ⟨a.start_time, a.end_time, a.id⟩) a.schedule_id := by
        rw [getTree_putTree_self, getTree_nil]
        exact List.mem_singleton.mpr rfl
      obtain ⟨suf, hsuf⟩ := runTT_getTree_prefix h1 a.schedule_id
      have hmemF : (⟨a.start_time, a.end_time, a.id⟩ : Iv) ∈ getTree tsF a.schedule_id := by
        rw [hsuf]
        exact List.mem_append_left suf hmem
      have hne : getTree tsF a.schedule_id ≠ [] := by
        intro hc
        rw [hc] at hmemF
        cases hmemF
      exact mem_outputIds.mpr ⟨(a.schedule_id, getTree tsF a.schedule_id),
        mem_of_getTree_ne_nil hne, ⟨a.start_time, a.end_time, a.id⟩, hmemF, rfl⟩

/-- Concrete instantiation of C9: the single-activity input selects id 7. -/
theorem claim9_witness : (7 : Int) ∈ [(7 : Int)] :=
  claim9_first_activity_selected ⟨7, 1, 0, 60⟩ [] [7] (by decide)

/-- C6: if activity `a` precedes activity `b` in input order, both belong to
the same track and their half-open intervals strictly overlap, then whenever
`a`'s id is selected by the greedy packer, `b`'s id is not: `a`'s interval is
already in the track's tree when `b` is tested, so `b` is rejected and never
inserted (ids are unique identifiers per the data model, stated as `Nodup`). -/
theorem claim6_greedy_priority (l₁ l₂ l₃ : List PAct) (a b : PAct) (out : List Int)
    (hids : ((l₁ ++ a :: l₂ ++ b :: l₃).map PAct.id).Nodup)
    (hrun : optimum_timetable (l₁ ++ a :: l₂ ++ b :: l₃) = some out)
    (htrack : a.schedule_id = b.schedule_id)
    (hover : max a.start_time b.start_time < min a.end_time b.end_time)
    (hao : a.id ∈ out) : b.id ∉ out := by
  obtain ⟨tsF, hts, rfl⟩ := optimum_timetable_some hrun
  obtain ⟨hne₁, hne₂, hne₃, hne₄⟩ := id_ne_facts hids
  have hndF : (tsF.map Prod.fst).Nodup := runTT_nodupKeys (by simp) hts
  -- split the run at the occurrence of b
  obtain ⟨ts₃, hrun₁₂, hrun₃⟩ := runTT_some_of_append hts
  -- split the first part at the occurrence of a
  obtain ⟨ts₁, hrun₁, hrun₂⟩ := runTT_some_of_append
    (show runTT [] (l₁ ++ (a :: l₂)) = some ts₃ from hrun₁₂)
  cases hsa : stepTT (some ts₁) a with
  | none => rw [runTT, List.foldl_cons, hsa, foldl_stepTT_none] at hrun₂; cases hrun₂
  | some ts₂ =>
    have hrun₂' : runTT ts₂ l₂ = some ts₃ := by
      rw [runTT, List.foldl_cons, hsa] at hrun₂; exact hrun₂
    -- a must have been admitted, otherwise no interval of the final state
    -- carries a's id and a.id could not be in the output
    have hinserted : ts₂ = putTree ts₁ a.schedule_id ⟨a.start_time, a.end_time, a.id⟩ ∧
        a.start_time < a.end_time := by
      rcases stepTT_some hsa with ⟨rfl, -⟩ | ⟨rfl, hpr, -⟩
      · exfalso
        -- a rejected: every interval ever stored has data ≠ a.id
        obtain ⟨p, hp, iva, hiva, hivad⟩ := mem_outputIds.mp hao
        have hgp : getTree tsF p.1 = p.2 := getTree_of_mem hndF hp
        have hrest : runTT ts₂ (l₂ ++ b :: l₃) = some tsF :=
          (runTT_append_some hrun₂' (b :: l₃)).trans hrun₃
        rcases runTT_provenance hrest p.1 iva (hgp ▸ hiva) with hin₂ | ⟨c, hc, -, hcv⟩
        · rcases runTT_provenance hrun₁ p.1 iva hin₂ with hin0 | ⟨c, hc, -, hcv⟩
          · rw [getTree_nil] at hin0; cases hin0
          · exact hne₁ c hc (by rw [hcv] at hivad; exact hivad)
        · exact hne₂ c hc (by rw [hcv] at hivad; exact hivad)
      · exact ⟨rfl, hpr⟩
    obtain ⟨rfl, hpr⟩ := hinserted
    -- a's interval is in the tree of its track from its own step onwards
    have hmem₂ : (⟨a.start_time, a.end_time, a.id⟩ : Iv) ∈ getTree
        (putTree ts₁ a.schedule_id ⟨a.start_time, a.end_time, a.id⟩) a.schedule_id := by
      rw [getTree_putTree_self]
      exact List.mem_append_right _ (List.mem_singleton.mpr rfl)
    obtain ⟨suf, hsuf⟩ := runTT_getTree_prefix hrun₂' a.schedule_id
    have hmem₃ : (⟨a.start_time, a.end_time, a.id⟩ : Iv) ∈ getTree ts₃ a.schedule_id := by
      rw [hsuf]
      exact List.mem_append_left suf hmem₂
    -- b's admission test therefore fires and b is rejected
    cases hsb : stepTT (some ts₃) b with
    | none => rw [runTT, List.foldl_cons, hsb, foldl_stepTT_none] at hrun₃; cases hrun₃
    | some ts₄ =>
      have hrun₄ : runTT ts₄ l₃ = some tsF := by
        rw [runTT, List.foldl_cons, hsb] at hrun₃; exact hrun₃
      have hovb : overlapsRange (getTree ts₃ b.schedule_id) b.start_time b.end_time = true := by
        rw [← htrack]
        unfold overlapsRange
        rw [Bool.and_eq_true, List.any_eq_true]
        refine ⟨by simp; omega, ⟨a.start_time, a.end_time, a.id⟩, hmem₃, ?_⟩
        simp only [Bool.and_eq_true, decide_eq_true_eq]
        omega
      have hts₄ : ts₄ = ts₃ := by
        rcases stepTT_some hsb with ⟨h4, -⟩ | ⟨-, -, hovfalse⟩
        · exact h4
        · rw [hovb] at hovfalse; cases hovfalse
      subst hts₄
      -- no interval of the final state carries b's id
      intro hbo
      obtain ⟨q, hq, ivb, hivb, hivbd⟩ := mem_outputIds.mp hbo
      have hgq : getTree tsF q.1 = q.2 := getTree_of_mem hndF hq
      rcases runTT_provenance hrun₄ q.1 ivb (hgq ▸ hivb) with hin₃ | ⟨c, hc, -, hcv⟩
      · rcases runTT_provenance hrun₁₂ q.1 ivb hin₃ with hin0 | ⟨c, hc, -, hcv⟩
        · rw [getTree_nil] at hin0; cases hin0
        · exact hne₃ c hc (by rw [hcv] at hivbd; exact hivbd)
      · exact hne₄ c hc (by rw [hcv] at hivbd; exact hivbd)

/-- Concrete instantiation of C6: with `a = (id 1, [0, 60))` preceding
`b = (id 2, [30, 90))` on the same track, the output is `[1]` and the theorem
yields that id 2 is not selected. -/
theorem claim6_witness : (2 : Int) ∉ [(1 : Int)] :=
  claim6_greedy_priority [] [] [] ⟨1, 1, 0, 60⟩ ⟨2, 1, 30, 90⟩ [1]
    (by decide) (by decide) rfl (by decide) (by decide)

/-- C4: on a list sorted ascending by end time, `prev` returns the largest
index `j < i` with `activities[j].end_time <= activities[i].start_time`
(an activity ending exactly at the queried start time qualifies, since the
comparison is `<=`), and `-1` when no such index exists — in particular when
`i = 0`. -/
theorem claim4_prev_rightmost (acts : List WAct) (hsort : List.Sorted endLE acts)
    (i : Nat) (hi : i < acts.length) :
    (prev acts i = -1 ∧ ∀ j : Nat, j < i → ¬(wend acts j ≤ wstart acts i)) ∨
    (0 ≤ prev acts i ∧ prev acts i < (i : Int) ∧
      wend acts (prev acts i) ≤ wstart acts i ∧
      ∀ j : Nat, j < i → wend acts j ≤ wstart acts i → (j : Int) ≤ prev acts i) := by
  have hmono : ∀ j k : Int, 0 ≤ j → j ≤ k → k < (i : Int) →
      wend acts j ≤ wend acts k := by
    intro j k hj0 hjk hki
    have hjn : j.toNat < acts.length := by omega
    have hkn : k.toNat < acts.length := by omega
    unfold wend
    rw [List.getD_eq_getElem acts ⟨0, 0, 0, 0⟩ hjn, List.getD_eq_getElem acts ⟨0, 0, 0, 0⟩ hkn]
    rcases eq_or_lt_of_le hjk with rfl | hlt
    · exact le_refl _
    · exact List.pairwise_iff_getElem.mp hsort j.toNat k.toNat hjn hkn (by omega)
  have hspec := prevAuxF_spec acts (wstart acts i) (i : Int) hmono
    (((i : Int) - 1 + 1 - 0).toNat + 1) 0 ((i : Int) - 1) (-1)
    (by omega) le_rfl (by omega)
    (fun j hj1 hj2 => absurd hj2 (by omega))
    (Or.inl ⟨rfl, fun j hj0 hjl => absurd hjl (by omega)⟩)
  rw [show prev acts i = prevAuxF acts (wstart acts i)
      (((i : Int) - 1 + 1 - 0).toNat + 1) 0 ((i : Int) - 1) (-1) from rfl]
  rcases hspec with ⟨hres, hnone⟩ | ⟨hres0, hresi, hresP, hresmax⟩
  · left
    refine ⟨hres, ?_⟩
    intro j hj
    exact hnone (j : Int) (by omega) (by omega)
  · right
    refine ⟨hres0, hresi, hresP, ?_⟩
    intro j hj hPj
    exact hresmax (j : Int) (by omega) (by omega) hPj

/-- Concrete instantiation of C4: on the sorted three-activity input of the
spec scenario, `prev` at index 2 returns index 0 (the activity ending at 5,
which is at most the queried start 6, while index 1 ends at 8 > 6). -/
theorem claim4_witness :
    prev [⟨1, 0, 5, 1⟩, ⟨2, 3, 8, 1⟩, ⟨3, 6, 10, 1⟩] 2 = 0 := by
  rcases claim4_prev_rightmost [⟨1, 0, 5, 1⟩, ⟨2, 3, 8, 1⟩, ⟨3, 6, 10, 1⟩]
      (by decide) 2 (by decide) with ⟨h1, h2⟩ | ⟨h1, h2, h3, h4⟩
  · exact absurd (h2 0 (by decide)) (by decide)
  · simp only [Nat.cast_ofNat] at h1 h2 h3
    have h5 : prev [⟨1, 0, 5, 1⟩, ⟨2, 3, 8, 1⟩, ⟨3, 6, 10, 1⟩] 2 = 0 ∨
        prev [⟨1, 0, 5, 1⟩, ⟨2, 3, 8, 1⟩, ⟨3, 6, 10, 1⟩] 2 = 1 := by omega
    rcases h5 with h5 | h5
    · exact h5
    · rw [h5] at h3
      exact absurd h3 (by decide)

/-- C10: the backtracking loop of `weighted_scheduling` always terminates:
`prev` returns a value in `-1..i-1` — strictly below `i` — for every
activity list and every loop index `i >= 0`, so the loop index strictly
decreases along both branches; consequently the loop body runs to completion
within any fuel bound exceeding the starting index (in `weighted_scheduling`
the fuel `n` exceeds the starting index `n - 1`). -/
theorem claim10_backtrack_terminates :
    (∀ (acts : List WAct) (i : Int), 0 ≤ i → -1 ≤ prev acts i ∧ prev acts i < i) ∧
    (∀ (acts : List WAct) (dp : List Int) (fuel : Nat) (i : Int),
      i < (fuel : Int) → (backtrackAux acts dp fuel i).isSome = true) :=
  ⟨fun acts i hi => prev_bounds acts i hi,
   fun acts dp fuel i hi => backtrackAux_isSome acts dp fuel i hi⟩

/-- Concrete instantiation of C10: `prev` at index 2 of the empty list lies in
`-1..1`, and the backtracking loop from index 2 with fuel 3 completes. -/
theorem claim10_witness :
    (-1 ≤ prev [] 2 ∧ prev [] 2 < 2) ∧
    (backtrackAux [] [] 3 2).isSome = true :=
  ⟨claim10_backtrack_terminates.1 [] 2 (by decide),
   claim10_backtrack_terminates.2 [] [] 3 2 (by decide)⟩

end Sonar
